import Mathlib

/-!
Shallow embedding of `pkg/gadgets/interface.go` (inspektor-gadget):
the `BaseFactory` trace registry with `Initialize`, `LookupOrCreate`,
`Delete` and `Operations`.

Modelling choices, all read off the Go source:
* a Go `map[string]interface{}` field that may be nil is
  `Option (List (String × Option V))`: `none` is the nil map, and each
  entry's value is `Option V` because an `interface{}` value may itself
  be nil.  Reading a nil map yields "not found" (Go semantics), which
  the functions below implement by matching on the outer `Option`.
* the factory function argument `newTrace func() interface{}` may be nil
  and, when called, returns a possibly-nil value: `Option (Option V)`.
  Each operation reports how many times it invoked the factory function.
* the type assertion in `Delete` is evaluated on the `*BaseFactory`
  receiver itself, whose method set never includes `DeleteTrace` — Go
  embedding does not let the embedded receiver see the outer gadget
  type's methods — so the assertion always fails;
  `implementsDeleteTrace` embeds that always-false outcome, and
  `Delete` records the hook calls it actually makes (name and stored
  value, in order) so that the hook protocol can be stated.
* the mutex serialises every operation, so a concurrent execution is
  observationally one of the sequential interleavings modelled here.
-/

namespace Gadgets

/-- `TraceOperation` from the source: an operation callable via the
gadget operation annotation.  The trace resource type is a parameter
(it lives in an external package). -/
structure TraceOperation (T : Type) : Type where
  Operation : String → T → Unit
  Doc : String
  Order : Int

/-- `BaseFactory` from the source.  `R` is the `Resolver` interface type,
`C` the Kubernetes client type, `V` the dynamic type behind the
`interface{}` trace values; the Go zero value of each reference field is
`none`. -/
structure BaseFactory (R C V : Type) : Type where
  Resolver : Option R
  Client : Option C
  traces : Option (List (String × Option V))

variable {R C V T : Type}

/-- The Go zero value of `BaseFactory`: all fields nil. -/
def BaseFactory.zeroValue (R C V : Type) : BaseFactory R C V :=
  ⟨none, none, none⟩

/-- Go map read `v, ok := m[name]`: `some w` when the entry is present
(with possibly-nil stored value `w`), `none` when absent. -/
def mapLookup (m : List (String × Option V)) (n : String) : Option (Option V) :=
  match m with
  | [] => none
  | (k, w) :: rest => if k = n then some w else mapLookup rest n

/-- Go map assignment `m[name] = v`: replace the existing entry or add a
new one. -/
def mapInsert (m : List (String × Option V)) (n : String) (v : Option V) :
    List (String × Option V) :=
  match m with
  | [] => [(n, v)]
  | (k, w) :: rest => if k = n then (n, v) :: rest else (k, w) :: mapInsert rest n v

/-- Go `delete(m, name)`: remove the entry for the key (maps hold at most
one entry per key). -/
def mapDelete (m : List (String × Option V)) (n : String) :
    List (String × Option V) :=
  match m with
  | [] => []
  | (k, w) :: rest => if k = n then rest else (k, w) :: mapDelete rest n

/-- The observable name-to-value mapping of a factory, nil map included:
`some w` when `n` has an entry with stored value `w`. -/
def BaseFactory.tracesLookup (f : BaseFactory R C V) (n : String) : Option (Option V) :=
  match f.traces with
  | none => none
  | some m => mapLookup m n

/-- `Initialize` from the source: binds the Resolver and the Client. -/
def BaseFactory.Initialize (f : BaseFactory R C V) (r : R) (c : C) : BaseFactory R C V :=
  { f with Resolver := some r, Client := some c }

/-- Outcome of `LookupOrCreate`: returned value, the factory's new
state, and how many times the factory function was invoked. -/
structure LookupOutcome (R C V : Type) : Type where
  result : Option V
  factory : BaseFactory R C V
  invocations : Nat

/-- `LookupOrCreate` from the source, line by line: if the trace map is
nil it is allocated (and the lookup skipped); otherwise a present entry
is returned as is.  On a miss, a nil `newTrace` yields nil; a non-nil
one is invoked once and its result stored under the name and returned. -/
def BaseFactory.LookupOrCreate (f : BaseFactory R C V) (name : String)
    (newTrace : Option (Option V)) : LookupOutcome R C V :=
  match f.traces with
  | none =>
    let f1 : BaseFactory R C V := { f with traces := some [] }
    match newTrace with
    | none => ⟨none, f1, 0⟩
    | some v => ⟨v, { f1 with traces := some (mapInsert [] name v) }, 1⟩
  | some m =>
    match mapLookup m name with
    | some w => ⟨w, f, 0⟩
    | none =>
      match newTrace with
      | none => ⟨none, f, 0⟩
      | some v => ⟨v, { f with traces := some (mapInsert m name v) }, 1⟩

/-- Outcome of `Delete`: the factory's new state and the calls made to
the `DeleteTrace` hook (trace name and stored value, in order). -/
structure DeleteOutcome (R C V : Type) : Type where
  factory : BaseFactory R C V
  hookCalls : List (String × Option V)

/-- The type assertion `TraceFactory(f).(TraceFactoryWithDeleteTrace)`
from the source (interface.go:167).  Its operand is the `*BaseFactory`
receiver itself, whose dynamic type declares only `Initialize`,
`LookupOrCreate`, `Delete` and `Operations` — never `DeleteTrace`, not
even when a concrete gadget embeds `BaseFactory` and defines it, since
embedding does not extend the embedded receiver's method set.  The
assertion therefore always yields not-ok. -/
def BaseFactory.implementsDeleteTrace (_f : BaseFactory R C V) : Bool :=
  false

/-- `Delete` from the source: look the name up (a nil-map read is "not
found"); on absence, a logged no-op.  On presence, the capability
assertion is checked (`implementsDeleteTrace`, always false); were it
to succeed, the hook would be called with the name and the stored
value; then the entry is removed. -/
def BaseFactory.Delete (f : BaseFactory R C V) (name : String) :
    DeleteOutcome R C V :=
  match f.traces with
  | none => ⟨f, []⟩
  | some m =>
    match mapLookup m name with
    | none => ⟨f, []⟩
    | some w =>
      ⟨{ f with traces := some (mapDelete m name) },
       if f.implementsDeleteTrace then [(name, w)] else []⟩

/-- `Operations` from the source: the base implementation returns the
empty map. -/
def BaseFactory.Operations (f : BaseFactory R C V) : List (String × TraceOperation T) :=
  []

/-- N callers of `LookupOrCreate` on the same name, each with a non-nil
factory function returning the given value, run in the order the mutex
granted them the lock: the list of returned values, the final state,
and the total number of factory-function invocations. -/
def runCalls (n : String) :
    BaseFactory R C V → List (Option V) →
      List (Option V) × BaseFactory R C V × Nat
  | f, [] => ([], f, 0)
  | f, v :: vs =>
    let o := f.LookupOrCreate n (some v)
    let rest := runCalls n o.factory vs
    (o.result :: rest.1, rest.2.1, o.invocations + rest.2.2)

/-- A concrete registry state with a single trace "t1" holding 7. -/
def fooFactory : BaseFactory Unit Unit Nat :=
  ⟨none, none, some [("t1", some 7)]⟩

/-- Keys of the trace map are pairwise distinct, as in any Go map. -/
def keysNodup (m : List (String × Option V)) : Prop :=
  (m.map Prod.fst).Nodup

/-- A reachable factory state: its trace map, when allocated, has at
most one entry per name. -/
def BaseFactory.WellFormed (f : BaseFactory R C V) : Prop :=
  ∀ m, f.traces = some m → keysNodup m

/-! ### Lemmas about the map primitives -/

theorem mapLookup_eq_none_of_not_mem {m : List (String × Option V)} {n : String}
    (h : n ∉ m.map Prod.fst) : mapLookup m n = none := by
  induction m with
  | nil => rfl
  | cons p rest ih =>
    obtain ⟨k, w⟩ := p
    simp only [List.map_cons, List.mem_cons] at h
    push_neg at h
    simp only [mapLookup, if_neg (Ne.symm h.1)]
    exact ih h.2

theorem mapLookup_mapInsert_self (m : List (String × Option V)) (n : String)
    (v : Option V) : mapLookup (mapInsert m n v) n = some v := by
  induction m with
  | nil => simp [mapInsert, mapLookup]
  | cons p rest ih =>
    obtain ⟨k, w⟩ := p
    by_cases hk : k = n
    · simp [mapInsert, mapLookup, hk]
    · simp [mapInsert, mapLookup, hk, ih]

theorem mapLookup_mapInsert_ne {k n : String} (m : List (String × Option V))
    (v : Option V) (h : k ≠ n) : mapLookup (mapInsert m n v) k = mapLookup m k := by
  induction m with
  | nil => simp [mapInsert, mapLookup, Ne.symm h]
  | cons p rest ih =>
    obtain ⟨k2, w⟩ := p
    by_cases hk : k2 = n
    · subst hk
      simp [mapInsert, mapLookup, Ne.symm h]
    · simp [mapInsert, mapLookup, hk, ih]

theorem mapDelete_sublist (m : List (String × Option V)) (n : String) :
    List.Sublist (mapDelete m n) m := by
  induction m with
  | nil => simp [mapDelete]
  | cons p rest ih =>
    obtain ⟨k, w⟩ := p
    by_cases hk : k = n
    · simp only [mapDelete, if_pos hk]
      exact List.sublist_cons_self _ _
    · simp only [mapDelete, if_neg hk]
      exact ih.cons₂ _

theorem mapLookup_mapDelete_self {m : List (String × Option V)} {n : String}
    (h : keysNodup m) : mapLookup (mapDelete m n) n = none := by
  induction m with
  | nil => rfl
  | cons p rest ih =>
    obtain ⟨k, w⟩ := p
    simp only [keysNodup, List.map_cons, List.nodup_cons] at h
    by_cases hk : k = n
    · simp only [mapDelete, if_pos hk]
      exact mapLookup_eq_none_of_not_mem (hk ▸ h.1)
    · simp only [mapDelete, if_neg hk, mapLookup, if_neg hk]
      exact ih h.2

theorem mapLookup_mapDelete_ne {k n : String} (m : List (String × Option V))
    (h : k ≠ n) : mapLookup (mapDelete m n) k = mapLookup m k := by
  induction m with
  | nil => rfl
  | cons p rest ih =>
    obtain ⟨k2, w⟩ := p
    by_cases hk : k2 = n
    · subst hk
      simp [mapDelete, mapLookup, Ne.symm h]
    · simp [mapDelete, mapLookup, hk, ih]

theorem mapDelete_mapInsert_absent {m : List (String × Option V)} {n : String}
    (v : Option V) (h : mapLookup m n = none) :
    mapDelete (mapInsert m n v) n = m := by
  induction m with
  | nil => simp [mapInsert, mapDelete]
  | cons p rest ih =>
    obtain ⟨k, w⟩ := p
    by_cases hk : k = n
    · simp [mapLookup, if_pos hk] at h
    · simp only [mapLookup, if_neg hk] at h
      simp [mapInsert, mapDelete, hk, ih h]

theorem mem_keys_mapInsert {k n : String} {m : List (String × Option V)}
    {v : Option V} (h : k ∈ (mapInsert m n v).map Prod.fst) :
    k ∈ m.map Prod.fst ∨ k = n := by
  induction m with
  | nil => simpa [mapInsert] using h
  | cons p rest ih =>
    obtain ⟨k2, w⟩ := p
    by_cases hk : k2 = n
    · subst hk
      simp [mapInsert] at h ⊢
      tauto
    · simp only [mapInsert, if_neg hk, List.map_cons, List.mem_cons] at h ⊢
      rcases h with h | h
      · exact Or.inl (Or.inl h)
      · rcases ih h with h2 | h2
        · exact Or.inl (Or.inr h2)
        · exact Or.inr h2

theorem keysNodup_mapInsert {m : List (String × Option V)} (n : String)
    (v : Option V) (h : keysNodup m) : keysNodup (mapInsert m n v) := by
  induction m with
  | nil => simp [mapInsert, keysNodup]
  | cons p rest ih =>
    obtain ⟨k, w⟩ := p
    simp only [keysNodup, List.map_cons, List.nodup_cons] at h
    by_cases hk : k = n
    · subst hk
      simpa [keysNodup, mapInsert] using h
    · simp only [keysNodup, mapInsert, if_neg hk, List.map_cons, List.nodup_cons]
      constructor
      · intro hmem
        rcases mem_keys_mapInsert hmem with h2 | h2
        · exact h.1 h2
        · exact hk h2
      · exact ih h.2

theorem keysNodup_mapDelete {m : List (String × Option V)} (n : String)
    (h : keysNodup m) : keysNodup (mapDelete m n) :=
  List.Nodup.sublist ((mapDelete_sublist m n).map Prod.fst) h

/-! ### Lemmas about the registry operations -/

theorem lookupOrCreate_present {f : BaseFactory R C V} {n : String} {w : Option V}
    (g : Option (Option V)) (h : f.tracesLookup n = some w) :
    f.LookupOrCreate n g = ⟨w, f, 0⟩ := by
  obtain ⟨r, c, tr⟩ := f
  cases tr with
  | none => simp [BaseFactory.tracesLookup] at h
  | some m =>
    simp only [BaseFactory.tracesLookup] at h
    simp [BaseFactory.LookupOrCreate, h]

theorem lookupOrCreate_absent_null {f : BaseFactory R C V} {n : String}
    (h : f.tracesLookup n = none) :
    (f.LookupOrCreate n none).result = none ∧
    (f.LookupOrCreate n none).invocations = 0 ∧
    (f.LookupOrCreate n none).factory.traces.getD [] = f.traces.getD [] ∧
    ∀ k, (f.LookupOrCreate n none).factory.tracesLookup k = f.tracesLookup k := by
  obtain ⟨r, c, tr⟩ := f
  cases tr with
  | none =>
    refine ⟨rfl, rfl, rfl, fun k => ?_⟩
    simp [BaseFactory.LookupOrCreate, BaseFactory.tracesLookup, mapLookup]
  | some m =>
    simp only [BaseFactory.tracesLookup] at h
    simp [BaseFactory.LookupOrCreate, h, BaseFactory.tracesLookup]

theorem lookupOrCreate_absent_create {f : BaseFactory R C V} {n : String}
    (v : Option V) (h : f.tracesLookup n = none) :
    (f.LookupOrCreate n (some v)).result = v ∧
    (f.LookupOrCreate n (some v)).invocations = 1 ∧
    (f.LookupOrCreate n (some v)).factory.tracesLookup n = some v ∧
    ∀ k, k ≠ n →
      (f.LookupOrCreate n (some v)).factory.tracesLookup k = f.tracesLookup k := by
  obtain ⟨r, c, tr⟩ := f
  cases tr with
  | none =>
    refine ⟨rfl, rfl, ?_, fun k hk => ?_⟩
    · simp [BaseFactory.LookupOrCreate, BaseFactory.tracesLookup,
        mapLookup_mapInsert_self]
    · simp [BaseFactory.LookupOrCreate, BaseFactory.tracesLookup,
        mapLookup_mapInsert_ne _ _ hk, mapLookup, Ne.symm hk]
  | some m =>
    simp only [BaseFactory.tracesLookup] at h
    refine ⟨?_, ?_, ?_, fun k hk => ?_⟩
    · simp [BaseFactory.LookupOrCreate, h]
    · simp [BaseFactory.LookupOrCreate, h]
    · simp [BaseFactory.LookupOrCreate, h, BaseFactory.tracesLookup,
        mapLookup_mapInsert_self]
    · simp [BaseFactory.LookupOrCreate, h, BaseFactory.tracesLookup,
        mapLookup_mapInsert_ne _ _ hk]

theorem delete_absent {f : BaseFactory R C V} {n : String}
    (h : f.tracesLookup n = none) :
    f.Delete n = ⟨f, []⟩ := by
  obtain ⟨r, c, tr⟩ := f
  cases tr with
  | none => rfl
  | some m =>
    simp only [BaseFactory.tracesLookup] at h
    simp [BaseFactory.Delete, h]

theorem delete_present {f : BaseFactory R C V} {n : String} {w : Option V}
    (h : f.tracesLookup n = some w) :
    (f.Delete n).hookCalls = [] ∧
    (∀ k, k ≠ n → (f.Delete n).factory.tracesLookup k = f.tracesLookup k) ∧
    (f.WellFormed → (f.Delete n).factory.tracesLookup n = none) := by
  obtain ⟨r, c, tr⟩ := f
  cases tr with
  | none => simp [BaseFactory.tracesLookup] at h
  | some m =>
    simp only [BaseFactory.tracesLookup] at h
    refine ⟨?_, fun k hk => ?_, fun hwf => ?_⟩
    · simp [BaseFactory.Delete, h, BaseFactory.implementsDeleteTrace]
    · simp [BaseFactory.Delete, h, BaseFactory.tracesLookup,
        mapLookup_mapDelete_ne _ hk]
    · have hm : keysNodup m := hwf m rfl
      simp [BaseFactory.Delete, h, BaseFactory.tracesLookup,
        mapLookup_mapDelete_self hm]

theorem runCalls_present {s : BaseFactory R C V} {n : String} {w : Option V}
    (h : s.tracesLookup n = some w) (vs : List (Option V)) :
    runCalls n s vs = (List.replicate vs.length w, s, 0) := by
  induction vs with
  | nil => rfl
  | cons v vs ih =>
    simp [runCalls, lookupOrCreate_present (some v) h, ih, List.replicate]

/-! ### Claim theorems -/

/-- Claim C1 (code bug in the source): the claim and the interface's
own documentation ("DeleteTrace is called by Delete") say the hook runs
with the name and the stored value before removal, but the assertion
`TraceFactory(f).(TraceFactoryWithDeleteTrace)` is evaluated on the
`*BaseFactory` receiver, whose method set never contains `DeleteTrace`,
so the hook branch is dead code: `Delete` makes no hook call in any
state, for any name — shown here in general and at the concrete
failing input (entry "t1" present, holding 7, and still removed). -/
theorem Delete_hook_dead_code :
    (∀ (R C V : Type) (f : BaseFactory R C V) (n : String),
      (f.Delete n).hookCalls = []) ∧
    fooFactory.tracesLookup "t1" = some (some 7) ∧
    (fooFactory.Delete "t1").hookCalls = [] ∧
    (fooFactory.Delete "t1").factory.tracesLookup "t1" = none := by
  refine ⟨?_, by decide, by decide, by decide⟩
  intro R C V f n
  obtain ⟨r, c, tr⟩ := f
  cases tr with
  | none => rfl
  | some m =>
    cases hl : mapLookup m n with
    | none => simp [BaseFactory.Delete, hl]
    | some w => simp [BaseFactory.Delete, hl, BaseFactory.implementsDeleteTrace]

/-- Claim C2: `LookupOrCreate` returns a present entry without invoking
the factory function; on a miss with a non-nil factory function it
invokes it exactly once, stores the result under the name, and returns
it. -/
theorem LookupOrCreate_lookup_or_create (f : BaseFactory R C V) (n : String)
    (g : Option (Option V)) :
    (∀ w, f.tracesLookup n = some w →
      (f.LookupOrCreate n g).result = w ∧
      (f.LookupOrCreate n g).invocations = 0 ∧
      (f.LookupOrCreate n g).factory = f) ∧
    (f.tracesLookup n = none → ∀ v : Option V,
      (f.LookupOrCreate n (some v)).invocations = 1 ∧
      (f.LookupOrCreate n (some v)).result = v ∧
      (f.LookupOrCreate n (some v)).factory.tracesLookup n = some v) := by
  constructor
  · intro w h
    rw [lookupOrCreate_present g h]
    exact ⟨rfl, rfl, rfl⟩
  · intro h v
    obtain ⟨h1, h2, h3, _h4⟩ := lookupOrCreate_absent_create v h
    exact ⟨h2, h1, h3⟩

theorem LookupOrCreate_lookup_or_create_witness :
    (fooFactory.LookupOrCreate "t1" (some (some 99))).result = some 7 ∧
    (fooFactory.LookupOrCreate "t1" (some (some 99))).invocations = 0 ∧
    (fooFactory.LookupOrCreate "t2" (some (some 5))).invocations = 1 ∧
    (fooFactory.LookupOrCreate "t2" (some (some 5))).result = some 5 ∧
    (fooFactory.LookupOrCreate "t2" (some (some 5))).factory.tracesLookup "t2"
      = some (some 5) := by
  have ha :=
    (LookupOrCreate_lookup_or_create fooFactory "t1" (some (some 99))).1
      (some 7) (by decide)
  have hb :=
    (LookupOrCreate_lookup_or_create fooFactory "t2" (some (some 5))).2
      (by decide) (some 5)
  exact ⟨ha.1, ha.2.1, hb.1, hb.2.1, hb.2.2⟩

/-- Claim C3: `Delete` on an absent name is a no-op: no error (the
model returns normally), no hook call, and the factory state — the
trace map included — is unchanged. -/
theorem Delete_absent_noop {f : BaseFactory R C V} {n : String}
    (h : f.tracesLookup n = none) :
    f.Delete n = ⟨f, []⟩ :=
  delete_absent h

theorem Delete_absent_noop_witness :
    fooFactory.Delete "zz" = ⟨fooFactory, []⟩ :=
  Delete_absent_noop (by decide)

/-- Claim C4: `LookupOrCreate` with a nil factory function on an absent
name returns nil with no side effects: no invocation, no entry created
(the entry list, nil map read as empty, is unchanged) and the
observable name-to-value mapping is unchanged at every name. -/
theorem LookupOrCreate_null_absent_no_effect {f : BaseFactory R C V}
    {n : String} (h : f.tracesLookup n = none) :
    (f.LookupOrCreate n none).result = none ∧
    (f.LookupOrCreate n none).invocations = 0 ∧
    (f.LookupOrCreate n none).factory.traces.getD [] = f.traces.getD [] ∧
    ∀ k, (f.LookupOrCreate n none).factory.tracesLookup k = f.tracesLookup k :=
  lookupOrCreate_absent_null h

theorem LookupOrCreate_null_absent_no_effect_witness :
    (fooFactory.LookupOrCreate "t9" none).result = none ∧
    (fooFactory.LookupOrCreate "t9" none).invocations = 0 ∧
    (fooFactory.LookupOrCreate "t9" none).factory.traces.getD []
      = fooFactory.traces.getD [] ∧
    (fooFactory.LookupOrCreate "t9" none).factory.tracesLookup "t1"
      = fooFactory.tracesLookup "t1" := by
  have h := LookupOrCreate_null_absent_no_effect
    (f := fooFactory) (n := "t9") (by decide)
  exact ⟨h.1, h.2.1, h.2.2.1, h.2.2.2 "t1"⟩

/-- Claim C5: N callers of `LookupOrCreate` on a never-seen name, each
with the same non-nil factory function, serialised by the mutex into an
arbitrary order: the factory function runs exactly once in total and
every caller observes the constructed value. -/
theorem LookupOrCreate_concurrent_constructs_once {f : BaseFactory R C V}
    {n : String} (h : f.tracesLookup n = none) (v : Option V) (N : Nat)
    (hN : 0 < N) :
    (runCalls n f (List.replicate N v)).2.2 = 1 ∧
    (runCalls n f (List.replicate N v)).1 = List.replicate N v := by
  cases N with
  | zero => exact absurd hN (by simp)
  | succ k =>
    obtain ⟨h1, h2, h3, _h4⟩ := lookupOrCreate_absent_create v h
    have hrest := runCalls_present h3 (List.replicate k v)
    constructor
    · simp [List.replicate, runCalls, hrest, h2]
    · simp [List.replicate, runCalls, hrest, h1]

theorem LookupOrCreate_concurrent_constructs_once_witness :
    (runCalls "t3" fooFactory (List.replicate 4 (some 11))).2.2 = 1 ∧
    (runCalls "t3" fooFactory (List.replicate 4 (some 11))).1
      = List.replicate 4 (some 11) :=
  LookupOrCreate_concurrent_constructs_once (by decide) (some 11) 4 (by decide)

/-- Claim C6: the zero-value factory holds at most one entry per name,
and `Initialize`, `LookupOrCreate` and `Delete` each preserve that
invariant, so every reachable trace store maps each name to at most one
value. -/
theorem BaseFactory_at_most_one_entry_per_name :
    (∀ R C V : Type, (BaseFactory.zeroValue R C V).WellFormed) ∧
    (∀ (R C V : Type) (f : BaseFactory R C V) (r : R) (c : C),
      f.WellFormed → (f.Initialize r c).WellFormed) ∧
    (∀ (R C V : Type) (f : BaseFactory R C V) (n : String)
      (g : Option (Option V)),
      f.WellFormed → (f.LookupOrCreate n g).factory.WellFormed) ∧
    (∀ (R C V : Type) (f : BaseFactory R C V) (n : String),
      f.WellFormed → (f.Delete n).factory.WellFormed) := by
  refine ⟨?_, ?_, ?_, ?_⟩
  · intro R C V m hm
    cases hm
  · intro R C V f r c hf m hm
    exact hf m hm
  · intro R C V f n g hf
    obtain ⟨r, c, tr⟩ := f
    cases tr with
    | none =>
      cases g with
      | none => intro m hm; injection hm with hm2; subst hm2; simp [keysNodup]
      | some v =>
        intro m hm
        simp only [BaseFactory.LookupOrCreate] at hm
        injection hm with hm2
        subst hm2
        simp [mapInsert, keysNodup]
    | some m0 =>
      have hm0 : keysNodup m0 := hf m0 rfl
      cases hl : mapLookup m0 n with
      | some w =>
        intro m hm
        simp only [BaseFactory.LookupOrCreate, hl] at hm
        injection hm with hm2
        subst hm2
        exact hm0
      | none =>
        cases g with
        | none =>
          intro m hm
          simp only [BaseFactory.LookupOrCreate, hl] at hm
          injection hm with hm2
          subst hm2
          exact hm0
        | some v =>
          intro m hm
          simp only [BaseFactory.LookupOrCreate, hl] at hm
          injection hm with hm2
          subst hm2
          exact keysNodup_mapInsert n v hm0
  · intro R C V f n hf
    obtain ⟨r, c, tr⟩ := f
    cases tr with
    | none => exact hf
    | some m0 =>
      have hm0 : keysNodup m0 := hf m0 rfl
      cases hl : mapLookup m0 n with
      | none =>
        intro m hm
        simp only [BaseFactory.Delete, hl] at hm
        injection hm with hm2
        subst hm2
        exact hm0
      | some w =>
        intro m hm
        simp only [BaseFactory.Delete, hl] at hm
        injection hm with hm2
        subst hm2
        exact keysNodup_mapDelete n hm0

theorem BaseFactory_at_most_one_entry_per_name_witness :
    ((fooFactory.LookupOrCreate "t2" (some (some 5))).factory.Delete
      "t1").factory.WellFormed := by
  have hwf : fooFactory.WellFormed := fun m hm => by
    injection hm with hm2; subst hm2; simp [keysNodup]
  have h1 := BaseFactory_at_most_one_entry_per_name.2.2.1
    Unit Unit Nat fooFactory "t2" (some (some 5)) hwf
  exact BaseFactory_at_most_one_entry_per_name.2.2.2
    Unit Unit Nat _ "t1" h1

/-- Claim C7: the base implementation of `Operations` returns the empty
mapping, whatever the factory state. -/
theorem Operations_empty (f : BaseFactory R C V) :
    f.Operations = ([] : List (String × TraceOperation T)) :=
  rfl

/-- Claim C8: on the zero-value factory (trace map still nil, no
`LookupOrCreate` ever run), `Delete` of any name returns normally — the
nil-map read yields "not found", as in Go, so there is no panic — calls
no hook, and leaves the factory unchanged. -/
theorem Delete_on_fresh_factory_safe (R C V : Type) (n : String) :
    (BaseFactory.zeroValue R C V).Delete n
      = ⟨BaseFactory.zeroValue R C V, []⟩ :=
  rfl

/-- Claim C9: a non-nil factory function returning nil still occupies
the entry: the name maps to a stored nil, every later `LookupOrCreate`
on that name returns nil without invoking its factory function, and
`Delete` frees the name again. -/
theorem LookupOrCreate_stores_nil_result {f : BaseFactory R C V} {n : String}
    (h : f.tracesLookup n = none) :
    (f.LookupOrCreate n (some none)).factory.tracesLookup n = some none ∧
    (∀ (s : BaseFactory R C V) (g : Option (Option V)),
      s.tracesLookup n = some none →
      (s.LookupOrCreate n g).result = none ∧
      (s.LookupOrCreate n g).invocations = 0 ∧
      (s.LookupOrCreate n g).factory = s) ∧
    ((f.LookupOrCreate n (some none)).factory.Delete n).factory.tracesLookup n
      = none := by
  refine ⟨(lookupOrCreate_absent_create none h).2.2.1,
    fun s g hs => by rw [lookupOrCreate_present g hs]; exact ⟨rfl, rfl, rfl⟩,
    ?_⟩
  obtain ⟨r, c, tr⟩ := f
  cases tr with
  | none =>
    simp [BaseFactory.LookupOrCreate, BaseFactory.Delete, BaseFactory.tracesLookup,
      mapInsert, mapLookup, mapDelete]
  | some m =>
    simp only [BaseFactory.tracesLookup] at h
    simp [BaseFactory.LookupOrCreate, BaseFactory.Delete, BaseFactory.tracesLookup,
      h, mapLookup_mapInsert_self, mapDelete_mapInsert_absent _ h]

theorem LookupOrCreate_stores_nil_result_witness :
    (fooFactory.LookupOrCreate "t5" (some none)).factory.tracesLookup "t5"
      = some none ∧
    ((fooFactory.LookupOrCreate "t5" (some none)).factory.LookupOrCreate
      "t5" (some (some 3))).result = none ∧
    ((fooFactory.LookupOrCreate "t5" (some none)).factory.LookupOrCreate
      "t5" (some (some 3))).invocations = 0 ∧
    (((fooFactory.LookupOrCreate "t5" (some none)).factory.Delete
      "t5").factory.tracesLookup "t5") = none := by
  have h := LookupOrCreate_stores_nil_result
    (f := fooFactory) (n := "t5") (by decide)
  have h2 := h.2.1 (fooFactory.LookupOrCreate "t5" (some none)).factory
    (some (some 3)) h.1
  exact ⟨h.1, h2.1, h2.2.1, h.2.2⟩

/-- Claim C10: `Initialize` writes only the `Resolver` and `Client`
fields: the trace map is untouched, and a repeated call just replaces
the previously bound pair. -/
theorem Initialize_only_binds_resolver_and_client (f : BaseFactory R C V)
    (r r2 : R) (c c2 : C) :
    (f.Initialize r c).traces = f.traces ∧
    (f.Initialize r c).Resolver = some r ∧
    (f.Initialize r c).Client = some c ∧
    (f.Initialize r c).Initialize r2 c2 = f.Initialize r2 c2 :=
  ⟨rfl, rfl, rfl, rfl⟩

end Gadgets
